import Mathlib

/-!
Verification development for the experimental register VM of the boa
JavaScript engine (`src/boa/src/vm/mod.rs` and
`src/boa/src/vm/compilation/mod.rs`), checked against the repository's
natural-language specification.

The embedding is shallow:

* `Value` stands for the external garbage-collected value system.  Only the
  cases the VM core touches are represented (the `undefined` sentinel,
  numbers, integers).  Numbers are modelled over `ℚ`; on every program
  appearing in this development the IEEE double arithmetic of the source
  evaluates exactly to the same rational results (`7 + 4 = 11` is exact and
  `11 + fl(1.1)` rounds to `fl(12.1)`, the literal the repository's test
  compares against).
* `In` is the instruction set of `vm/mod.rs` (`Ld`, `Bind`, `Add`); the
  `Reg(u8)` newtype is inlined as a `Nat` index (the u8 wraps only at 256,
  far above the 8-register file every claim is about).
* `Expr` is the AST shape consumed by `vm/mod.rs` (`ExprDef`), with the
  node kinds the compiler matches on; `localVar` and `Const.str` stand for
  the node kinds that fall into the compiler's catch-all `_` arm.  Rust
  vectors of children become the mutually inductive `ExprList`/`DeclList`.
* Rust panics (`panic!`, `unimplemented!`, out-of-bounds `Vec` indexing)
  are process aborts, not returned values; the embedding makes each such
  abort an `Except.error` of a dedicated panic type (`CompilePanic`,
  `Panic`) so that aborting and returning a typed error stay
  distinguishable.
* The external `Environment`/`Realm` scope chain is modelled from the
  spec's capability set (`has_binding`, `create_mutable_binding`,
  `set_mutable_binding`, `initialize` + `_binding`), as an association
  list, since its implementation is not part of the provided sources.
-/

/-- Modelled from the spec: the external value system.  Only the three
shapes the VM core constructs or inspects are represented: the `undefined`
sentinel, floating-point numbers (as rationals, see the header comment) and
integers (`Value::integer`, used by the `compilation` module). -/
inductive Value where
  | undefined
  | number (q : ℚ)
  | integer (n : Int)
deriving DecidableEq, Repr

/-- Modelled from the spec: the external value system's `+`.  The spec
leaves coercion to the host; every program in this development only ever
adds two numbers, which is the one case spelled out here.  The remaining
cases are collapsed to `undefined` as an explicit stand-in. -/
def vadd : Value → Value → Value
  | .number p, .number q => .number (p + q)
  | _, _ => .undefined

/-- The instruction set `In` of `vm/mod.rs`: `Ld(Reg, Value)`,
`Bind(Reg, String)`, `Add { dest, src }`.  Register operands are the
underlying indices of the `Reg(u8)` newtype. -/
inductive In where
  | ld (r : Nat) (v : Value)
  | bind (r : Nat) (ident : String)
  | add (dest src : Nat)
deriving DecidableEq, Repr

/-- Constants (`syntax::ast::constant::Const`) as used by `vm/mod.rs`:
the compiler matches `Const::Num` and sends every other constant kind to
the panicking catch-all; `str` represents those other kinds. -/
inductive Const where
  | num (q : ℚ)
  | str (s : String)
deriving DecidableEq, Repr

/-- Binary operator tags of the `ExprDef::BinOp` node.  The `vm/mod.rs`
compiler ignores the tag entirely (`ExprDef::BinOp(_, l, r)`, the
"fix hardcoded binop" comment), so two representatives suffice. -/
inductive Oper where
  | add
  | sub
deriving DecidableEq, Repr

mutual
/-- The AST shape consumed by `Compiler::compile_expr` in `vm/mod.rs`
(`ExprDef`; the `Expr` wrapper adds only source positions).  `block`,
`constDecl`, numeric `const` and `binOp` are the kinds the compiler
handles; `localVar` (an identifier reference) represents the kinds that
fall into its catch-all `_ => panic!()` arm. -/
inductive Expr where
  | block (es : ExprList)
  | constDecl (ds : DeclList)
  | const (c : Const)
  | binOp (op : Oper) (l r : Expr)
  | localVar (name : String)
/-- The `Vec<Expr>` payload of `ExprDef::Block`. -/
inductive ExprList where
  | nil
  | cons (e : Expr) (es : ExprList)
/-- The `Vec<(String, Expr)>` payload of `ExprDef::ConstDecl`. -/
inductive DeclList where
  | nil
  | cons (name : String) (init : Expr) (ds : DeclList)
end

/-- A Rust process abort raised during compilation (`panic!()` in
`vm/mod.rs`, `unimplemented!` in `vm/compilation/mod.rs`).  It is kept
distinct from any typed compile error: the source has no
`UnsupportedConstruct` or `RegisterOverflow` value at all. -/
inductive CompilePanic where
  | panicked
deriving DecidableEq, Repr

/-- The compiler state of `vm/mod.rs`: the accumulated instruction buffer
`res` and the register-allocation cursor `next_free`. -/
structure Compiler where
  res : List In
  next_free : Nat
deriving DecidableEq, Repr

mutual
/-- `Compiler::compile_expr` of `vm/mod.rs`, with the mutable `&mut self`
threaded as explicit state.  Note the `binOp` arm: the cursor is set to
`free + 1` before the right operand and is not restored afterwards, and
the operator tag is ignored — both directly from the source. -/
def compile_expr : Expr → Compiler → Except CompilePanic Compiler
  | .block es, c => compile_stmts es c
  | .constDecl ds, c => compile_decls ds c
  | .const (.num x), c =>
      .ok { c with res := c.res ++ [.ld c.next_free (.number x)] }
  | .const (.str _), _ => .error .panicked
  | .binOp _ l r, c =>
      match compile_expr l c with
      | .error e => .error e
      | .ok c1 =>
          match compile_expr r { c1 with next_free := c.next_free + 1 } with
          | .error e => .error e
          | .ok c2 =>
              .ok { c2 with res := c2.res ++ [.add c.next_free (c.next_free + 1)] }
  | .localVar _, _ => .error .panicked

/-- The `ExprDef::Block` loop of `compile_expr`. -/
def compile_stmts : ExprList → Compiler → Except CompilePanic Compiler
  | .nil, c => .ok c
  | .cons e es, c =>
      match compile_expr e c with
      | .error e' => .error e'
      | .ok c1 => compile_stmts es c1

/-- The `ExprDef::ConstDecl` loop of `compile_expr`: compile the
initializer, then emit `Bind(Reg(next_free), ident)`. -/
def compile_decls : DeclList → Compiler → Except CompilePanic Compiler
  | .nil, c => .ok c
  | .cons name e ds, c =>
      match compile_expr e c with
      | .error e' => .error e'
      | .ok c1 => compile_decls ds { c1 with res := c1.res ++ [.bind c1.next_free name] }
end

/-- `Compiler::compile` of `vm/mod.rs`: run `compile_expr`, then
`mem::replace` the instruction buffer with an empty one, returning the
buffer.  The cursor `next_free` is left untouched by the replace. -/
def Compiler.compile (c : Compiler) (expr : Expr) : Except CompilePanic (List In × Compiler) :=
  match compile_expr expr c with
  | .error e => .error e
  | .ok c1 => .ok (c1.res, { c1 with res := [] })

namespace Compilation

/-- Constants as matched by the `Node`-based compiler of
`vm/compilation/mod.rs` (`Const::Int` and `Const::Num`). -/
inductive NConst where
  | int (n : Int)
  | num (q : ℚ)
deriving DecidableEq, Repr

/-- Operator tags of the `Node::BinOp` node as matched in
`vm/compilation/mod.rs`: `BinOp::Num(NumOp::Add)` is the one supported
case; the others hit `unimplemented!` arms. -/
inductive NOper where
  | numAdd
  | numSub
  | compEqual
  | otherOp
deriving DecidableEq, Repr

mutual
/-- The `syntax::ast::node::Node` shape consumed by
`vm/compilation/mod.rs`; `unsupported` represents the node kinds that fall
into the `_ => unimplemented!("unsupported Node")` arm. -/
inductive Node where
  | const (c : NConst)
  | binOp (op : NOper) (lhs rhs : Node)
  | constDeclList (ds : NDeclList)
  | unsupported (kind : String)
/-- The declarator list payload of `Node::ConstDeclList`. -/
inductive NDeclList where
  | nil
  | cons (name : String) (init : Node) (ds : NDeclList)
end

/-- The compiler state of `vm/compilation/mod.rs` (same two fields as the
`vm/mod.rs` one). -/
structure Compiler where
  res : List In
  next_free : Nat
deriving DecidableEq, Repr

mutual
/-- The `CodeGen::compile` implementations of `vm/compilation/mod.rs`
(`impl CodeGen for Node` and `impl CodeGen for BinOp`), threaded as
explicit state.  Unlike `vm/mod.rs`, the `binOp` arm restores the cursor:
`compiler.next_free = dest` before the operator match. -/
def compileNode : Node → Compiler → Except CompilePanic Compiler
  | .const (.int n), c =>
      .ok { c with res := c.res ++ [.ld c.next_free (.integer n)] }
  | .const (.num q), c =>
      .ok { c with res := c.res ++ [.ld c.next_free (.number q)] }
  | .binOp op lhs rhs, c =>
      match compileNode lhs c with
      | .error e => .error e
      | .ok c1 =>
          match compileNode rhs { c1 with next_free := c.next_free + 1 } with
          | .error e => .error e
          | .ok c2 =>
              let c3 : Compiler := { c2 with next_free := c.next_free }
              match op with
              | .numAdd =>
                  .ok { c3 with res := c3.res ++ [.add c.next_free (c.next_free + 1)] }
              | _ => .error .panicked
  | .constDeclList ds, c => compileDecls ds c
  | .unsupported _, _ => .error .panicked

/-- The `Node::ConstDeclList` loop of `vm/compilation/mod.rs`. -/
def compileDecls : NDeclList → Compiler → Except CompilePanic Compiler
  | .nil, c => .ok c
  | .cons name e ds, c =>
      match compileNode e c with
      | .error e' => .error e'
      | .ok c1 => compileDecls ds { c1 with res := c1.res ++ [.bind c1.next_free name] }
end

/-- The statements loop of `Compiler::compile` in `vm/compilation/mod.rs`. -/
def compileStmtList : List Node → Compiler → Except CompilePanic Compiler
  | [], c => .ok c
  | n :: ns, c =>
      match compileNode n c with
      | .error e => .error e
      | .ok c1 => compileStmtList ns c1

/-- `Compiler::compile` of `vm/compilation/mod.rs`: compile every
statement, then `mem::replace` the buffer, leaving `next_free` untouched. -/
def Compiler.compile (c : Compiler) (list : List Node) : Except CompilePanic (List In × Compiler) :=
  match compileStmtList list c with
  | .error e => .error e
  | .ok c1 => .ok (c1.res, { c1 with res := [] })

end Compilation

/-- Modelled from the spec: the external `Environment`/`Realm` scope
chain, as an association list of bindings.  Only the capability set the VM
invokes from `Bind` is provided. -/
structure Environment where
  bindings : List (String × Value)
deriving DecidableEq, Repr

/-- Modelled from the spec: `has_binding(name) -> bool`. -/
def Environment.hasBinding (env : Environment) (n : String) : Bool :=
  env.bindings.any fun p => p.1 == n

/-- Modelled from the spec: `set_mutable_binding(name, value, strict)`, a
mutable assignment overwriting the existing binding. -/
def Environment.set_mutable_binding (env : Environment) (n : String) (v : Value) : Environment :=
  ⟨env.bindings.map fun p => if p.1 == n then (p.1, v) else p⟩

/-- Modelled from the spec: `create_mutable_binding(name, deletable,
scope_kind)`, creating a fresh uninitialised (undefined) binding. -/
def Environment.create_mutable_binding (env : Environment) (n : String) : Environment :=
  ⟨(n, Value.undefined) :: env.bindings⟩

/-- Modelled from the spec: the `initialize` + `_binding(name, value)`
capability, giving a created binding its first value. -/
def Environment.init_binding (env : Environment) (n : String) (v : Value) : Environment :=
  ⟨env.bindings.map fun p => if p.1 == n then (p.1, v) else p⟩

/-- A read-back of a binding, used to state what a later lookup of a bound
name observes. -/
def Environment.lookup (env : Environment) (n : String) : Option Value :=
  (env.bindings.find? fun p => p.1 == n).map fun p => p.2

/-- A Rust process abort raised during execution: out-of-bounds `Vec`
indexing on the register file carries the offending index.  The source
never constructs a runtime fault value; this is the only way `run`
terminates abnormally. -/
inductive Panic where
  | indexOutOfBounds (i : Nat)
deriving DecidableEq, Repr

/-- The `VM` struct of `vm/mod.rs`: the `Realm` (collapsed to its
environment, the only field the VM touches) and the register file. -/
structure VM where
  realm : Environment
  regs : List Value
deriving DecidableEq, Repr

/-- `VM::new` (`Executor::new`): a register file of eight `undefined`
slots around the supplied realm. -/
def VM.new (realm : Environment) : VM :=
  ⟨realm, List.replicate 8 .undefined⟩

/-- `VM::clear`: read a register's value and reset the slot to
`undefined`.  The Rust indexing panics when the register is out of range
of the file. -/
def VM.clear (vm : VM) (reg : Nat) : Except Panic (Value × VM) :=
  match vm.regs.get? reg with
  | some v => .ok (v, { vm with regs := vm.regs.set reg .undefined })
  | none => .error (.indexOutOfBounds reg)

/-- One dispatch of the `while` loop body of `VM::run`.  `Ld` stores into
the register (panicking out of range); `Add` clears both operands and
stores their sum into `dest`; `Bind` clears the register and either
overwrites an existing binding or creates-and-initialises a new one.  The
catch-all `_ => panic!()` arm of the source is unreachable: the three
variants above are all of `In`. -/
def VM.step (vm : VM) (i : In) : Except Panic VM :=
  match i with
  | .ld r v =>
      if r < vm.regs.length then .ok { vm with regs := vm.regs.set r v }
      else .error (.indexOutOfBounds r)
  | .add dest src =>
      match vm.clear dest with
      | .error e => .error e
      | .ok (vd, vm1) =>
          match vm1.clear src with
          | .error e => .error e
          | .ok (vs, vm2) => .ok { vm2 with regs := vm2.regs.set dest (vadd vd vs) }
  | .bind r ident =>
      match vm.clear r with
      | .error e => .error e
      | .ok (val, vm1) =>
          if vm1.realm.hasBinding ident then
            .ok { vm1 with realm := vm1.realm.set_mutable_binding ident val }
          else
            .ok { vm1 with realm := (vm1.realm.create_mutable_binding ident).init_binding ident val }

/-- The instruction loop of `VM::run`, one `step` per instruction, in
order. -/
def VM.runList (vm : VM) : List In → Except Panic VM
  | [] => .ok vm
  | i :: is =>
      match vm.step i with
      | .error e => .error e
      | .ok vm' => vm'.runList is

/-- `VM::run`: execute the whole sequence, then return register 0's
content (`Ok(self.regs[0].clone())`).  An `Except.error` is a process
abort of the source, never a returned fault value. -/
def VM.run (vm : VM) (instrs : List In) : Except Panic Value :=
  match vm.runList instrs with
  | .error e => .error e
  | .ok vm' =>
      match vm'.regs.get? 0 with
      | some v => .ok v
      | none => .error (.indexOutOfBounds 0)

/-- Pure nested binary-operator trees over numeric leaves — the expression
family the spec's register-stack-discipline property quantifies over. -/
inductive NumTree where
  | leaf (q : ℚ)
  | node (l r : NumTree)
deriving DecidableEq, Repr

/-- The `Expr` a `NumTree` denotes: `Add` operator nodes over numeric
constants. -/
def NumTree.toExpr : NumTree → Expr
  | .leaf q => .const (.num q)
  | .node l r => .binOp .add l.toExpr r.toExpr

/-- Tree depth, counting a leaf as depth 1 (a single operator over two
leaves has depth 2), the measure for which the spec's `c + D - 1` bound is
stated. -/
def NumTree.depth : NumTree → Nat
  | .leaf _ => 1
  | .node l r => 1 + max l.depth r.depth

/-- The arithmetic value of a tree. -/
def NumTree.denote : NumTree → ℚ
  | .leaf q => q
  | .node l r => l.denote + r.denote

/-- The instructions `compile_expr` emits for a `NumTree` compiled at
cursor `c` (proved against `compile_expr` below): left operand at `c`,
right operand at `c + 1`, then `Add { dest := c, src := c + 1 }`. -/
def NumTree.code : NumTree → Nat → List In
  | .leaf q, c => [.ld c (.number q)]
  | .node l r, c => l.code c ++ (r.code (c + 1) ++ [.add c (c + 1)])

/-- The cursor value `compile_expr` leaves behind after a `NumTree`
(proved against `compile_expr` below): the right-spine length added to
`c`, since the `vm/mod.rs` compiler never restores the cursor. -/
def NumTree.fcur : NumTree → Nat → Nat
  | .leaf _, c => c
  | .node _ r, c => r.fcur (c + 1)

/-- The largest register index an instruction mentions. -/
def In.maxReg : In → Nat
  | .ld r _ => r
  | .bind r _ => r
  | .add d s => max d s

/-- The largest register index a sequence mentions (0 for the empty
sequence). -/
def maxRegOf (l : List In) : Nat :=
  l.foldr (fun i m => max i.maxReg m) 0

/-- Does the instruction store into register `q`?  `Ld` stores its
operand, `Add` stores the sum into `dest` and `undefined` into `src`,
`Bind` stores `undefined` into its operand. -/
def In.writes : In → Nat → Bool
  | .ld r _, q => r == q
  | .add d s, q => d == q || s == q
  | .bind r _, q => r == q

instance {ε α : Type} [DecidableEq ε] [DecidableEq α] : DecidableEq (Except ε α) := fun x y =>
  match x, y with
  | .ok a, .ok b =>
      if h : a = b then .isTrue (by rw [h]) else .isFalse (fun hc => h (Except.ok.inj hc))
  | .ok _, .error _ => .isFalse (fun hc => Except.noConfusion hc)
  | .error _, .ok _ => .isFalse (fun hc => Except.noConfusion hc)
  | .error e, .error f =>
      if h : e = f then .isTrue (by rw [h]) else .isFalse (fun hc => h (Except.error.inj hc))

/-- The environment a `Bind` leaves behind (the two branches of the
`In::Bind` arm of `VM::run` collected into one function, for stating
lemmas): overwrite when the name is bound, create-and-initialise when it
is not. -/
def bindEnv (env : Environment) (n : String) (val : Value) : Environment :=
  if env.hasBinding n then env.set_mutable_binding n val
  else (env.create_mutable_binding n).init_binding n val

/-- The expression `1 + 2`. -/
def demoAdd : Expr := .binOp .add (.const (.num 1)) (.const (.num 2))

/-- The `1 + 2` operator node in the `compilation` module's AST. -/
def demoBin : Compilation.Node := .binOp .numAdd (.const (.num 1)) (.const (.num 2))

/-- The expression tree of `7 + 4 + 1.1` (left associated, as parsed). -/
def pocTree : NumTree := .node (.node (.leaf 7) (.leaf 4)) (.leaf (11/10))

/-- The AST of the repository's `poc` test source
`const x = 7 + 4 + 1.1;`: a block holding one const-declaration list. -/
def pocExpr : Expr :=
  .block (.cons (.constDecl (.cons "x" pocTree.toExpr .nil)) .nil)

/-- The instruction sequence the `poc` AST compiles to. -/
def pocInstrs : List In :=
  [.ld 0 (.number 7), .ld 1 (.number 4), .add 0 1,
   .ld 1 (.number (11/10)), .add 0 1, .bind 1 "x"]

/-- A right-nested chain of 8 `+` operators (9 leaves, depth 9): one more
nesting level than the register file can hold. -/
def deep9 : NumTree :=
  .node (.leaf 1) (.node (.leaf 2) (.node (.leaf 3) (.node (.leaf 4) (.node (.leaf 5)
    (.node (.leaf 6) (.node (.leaf 7) (.node (.leaf 8) (.leaf 9))))))))

/-- The instructions `deep9` compiles to: note the emitted register
index 8, one past the end of the 8-register file. -/
def deepInstrs : List In :=
  [.ld 0 (.number 1), .ld 1 (.number 2), .ld 2 (.number 3), .ld 3 (.number 4),
   .ld 4 (.number 5), .ld 5 (.number 6), .ld 6 (.number 7), .ld 7 (.number 8),
   .ld 8 (.number 9),
   .add 7 8, .add 6 7, .add 5 6, .add 4 5, .add 3 4, .add 2 3, .add 1 2, .add 0 1]

/-- A left-nested tree `(1 + 2) + 3` of depth 3. -/
def leftComb : NumTree := .node (.node (.leaf 1) (.leaf 2)) (.leaf 3)

/-- The instructions `leftComb` compiles to from cursor 0: no register
above index 1 is mentioned. -/
def leftCombInstrs : List In :=
  [.ld 0 (.number 1), .ld 1 (.number 2), .add 0 1, .ld 1 (.number 3), .add 0 1]

/-! ## Helper lemmas -/

theorem runList_append (vm : VM) (a b : List In) :
    vm.runList (a ++ b) =
      match vm.runList a with
      | .error e => .error e
      | .ok vm' => vm'.runList b := by
  induction a generalizing vm with
  | nil => simp [VM.runList]
  | cons i a ih =>
      simp only [List.cons_append, VM.runList]
      cases h : vm.step i with
      | error e => simp
      | ok vm' => simpa using ih vm'

theorem compile_tree (t : NumTree) : ∀ (co : Compiler),
    compile_expr t.toExpr co = .ok ⟨co.res ++ t.code co.next_free, t.fcur co.next_free⟩ := by
  induction t with
  | leaf q =>
      intro co
      simp [NumTree.toExpr, NumTree.code, NumTree.fcur, compile_expr]
  | node l r ihl ihr =>
      intro co
      simp only [NumTree.toExpr, compile_expr]
      rw [ihl co]
      dsimp only
      rw [ihr]
      dsimp only
      simp [NumTree.code, NumTree.fcur, List.append_assoc]

theorem maxRegOf_append (a b : List In) :
    maxRegOf (a ++ b) = max (maxRegOf a) (maxRegOf b) := by
  induction a with
  | nil => simp [maxRegOf]
  | cons i a ih =>
      simp only [maxRegOf, List.foldr_cons, List.cons_append] at *
      omega

theorem NumTree.depth_pos (t : NumTree) : 1 ≤ t.depth := by
  cases t <;> simp [NumTree.depth]

theorem maxReg_code_bound (t : NumTree) : ∀ c : Nat,
    maxRegOf (t.code c) + 1 ≤ c + t.depth := by
  induction t with
  | leaf q =>
      intro c
      simp [NumTree.code, NumTree.depth, maxRegOf, In.maxReg]
  | node l r ihl ihr =>
      intro c
      have hl := ihl c
      have hr := ihr (c + 1)
      have hdl : l.depth ≤ max l.depth r.depth := Nat.le_max_left _ _
      have hdr : r.depth ≤ max l.depth r.depth := Nat.le_max_right _ _
      have hone : 1 ≤ max l.depth r.depth := le_trans l.depth_pos hdl
      have hS : maxRegOf [In.add c (c + 1)] = c + 1 := by
        simp [maxRegOf, In.maxReg, Nat.max_eq_right (Nat.le_succ c)]
      simp only [NumTree.code, NumTree.depth, maxRegOf_append, hS]
      have hA : maxRegOf (l.code c) < c + 1 + max l.depth r.depth := by omega
      have hB : maxRegOf (r.code (c + 1)) < c + 1 + max l.depth r.depth := by omega
      have hC : c + 1 < c + 1 + max l.depth r.depth := by omega
      rw [← Nat.add_assoc]
      exact Nat.succ_le.mpr (Nat.max_lt.mpr ⟨hA, Nat.max_lt.mpr ⟨hB, hC⟩⟩)

theorem step_ld_values (vm : VM) (r : Nat) (v : Value) (h : r < vm.regs.length) :
    vm.step (.ld r v) = .ok { vm with regs := vm.regs.set r v } := by
  simp [VM.step, h]

theorem step_add_values (vm : VM) (d s : Nat) (a b : Value)
    (hd : vm.regs.get? d = some a) (hs : vm.regs.get? s = some b) (hds : d ≠ s) :
    vm.step (.add d s) =
      .ok { vm with regs :=
        ((vm.regs.set d .undefined).set s .undefined).set d (vadd a b) } := by
  simp only [VM.step, VM.clear, hd]
  rw [List.get?_set_ne _ _ hds, hs]

theorem step_bind_values (vm : VM) (r : Nat) (name : String) (val : Value)
    (h : vm.regs.get? r = some val) :
    vm.step (.bind r name) =
      .ok { realm := bindEnv vm.realm name val, regs := vm.regs.set r .undefined } := by
  simp only [VM.step, VM.clear, h, bindEnv]
  by_cases hb : vm.realm.hasBinding name <;> simp [hb]

theorem runList_code (t : NumTree) : ∀ (c : Nat) (vm : VM),
    vm.regs.length = 8 → c + t.depth ≤ 8 →
    ∃ vm' : VM, vm.runList (t.code c) = .ok vm' ∧ vm'.regs.length = 8 ∧
      vm'.regs.get? c = some (.number t.denote) ∧
      ∀ j : Nat, j < c → vm'.regs.get? j = vm.regs.get? j := by
  induction t with
  | leaf q =>
      intro c vm hlen hdep
      have hc : c < vm.regs.length := by simp [NumTree.depth] at hdep; omega
      refine ⟨{ vm with regs := vm.regs.set c (.number q) }, ?_, ?_, ?_, ?_⟩
      · simp [VM.runList, step_ld_values vm c _ hc]
      · simp [hlen]
      · simpa [NumTree.denote] using List.get?_set_eq_of_lt (Value.number q) hc
      · intro j hj
        exact List.get?_set_ne _ _ (by omega)
  | node l r ihl ihr =>
      intro c vm hlen hdep
      have hposl := l.depth_pos
      have hposr := r.depth_pos
      have hmaxl := Nat.le_max_left l.depth r.depth
      have hmaxr := Nat.le_max_right l.depth r.depth
      simp only [NumTree.depth] at hdep
      obtain ⟨vm1, hrun1, hlen1, hget1, hpres1⟩ := ihl c vm hlen (by omega)
      obtain ⟨vm2, hrun2, hlen2, hget2, hpres2⟩ := ihr (c + 1) vm1 hlen1 (by omega)
      have hget1' : vm2.regs.get? c = some (.number l.denote) := by
        rw [hpres2 c (Nat.lt_succ_self c)]; exact hget1
      have hadd := step_add_values vm2 c (c + 1) _ _ hget1' hget2 (by omega)
      have hclen : c < vm2.regs.length := by omega
      refine ⟨{ vm2 with regs := ((vm2.regs.set c .undefined).set (c + 1) .undefined).set c (vadd (.number l.denote) (.number r.denote)) }, ?_, ?_, ?_, ?_⟩
      · simp only [NumTree.code]
        rw [runList_append, hrun1]
        dsimp only
        rw [runList_append, hrun2]
        dsimp only
        simp [VM.runList, hadd]
      · simp [hlen2]
      · rw [List.get?_set_eq_of_lt _ (by simp [List.length_set]; omega)]
        simp [vadd, NumTree.denote]
      · intro j hj
        rw [List.get?_set_ne _ _ (by omega), List.get?_set_ne _ _ (by omega),
            List.get?_set_ne _ _ (by omega)]
        rw [hpres2 j (by omega), hpres1 j hj]

theorem step_not_writes (vm vm' : VM) (i : In) (q : Nat)
    (h : vm.step i = .ok vm') (hw : i.writes q = false) :
    vm'.regs.get? q = vm.regs.get? q := by
  cases i with
  | ld r v =>
      have hne : r ≠ q := by simpa [In.writes] using hw
      simp only [VM.step] at h
      split at h
      · simp only [Except.ok.injEq] at h
        subst h
        exact List.get?_set_ne _ _ hne
      · exact Except.noConfusion h
  | add d s =>
      have hne : d ≠ q ∧ s ≠ q := by simpa [In.writes] using hw
      cases hd : vm.regs.get? d with
      | none =>
          simp only [VM.step, VM.clear, hd] at h
          exact Except.noConfusion h
      | some vd =>
          cases hs : (vm.regs.set d Value.undefined).get? s with
          | none =>
              simp only [VM.step, VM.clear, hd, hs] at h
              exact Except.noConfusion h
          | some vs =>
              simp only [VM.step, VM.clear, hd, hs, Except.ok.injEq] at h
              subst h
              rw [List.get?_set_ne _ _ hne.1, List.get?_set_ne _ _ hne.2,
                  List.get?_set_ne _ _ hne.1]
  | bind r name =>
      have hne : r ≠ q := by simpa [In.writes] using hw
      cases hr : vm.regs.get? r with
      | none =>
          simp only [VM.step, VM.clear, hr] at h
          exact Except.noConfusion h
      | some val =>
          simp only [VM.step, VM.clear, hr] at h
          by_cases hb : vm.realm.hasBinding name = true
          · rw [if_pos hb] at h
            simp only [Except.ok.injEq] at h
            subst h
            exact List.get?_set_ne _ _ hne
          · rw [if_neg hb] at h
            simp only [Except.ok.injEq] at h
            subst h
            exact List.get?_set_ne _ _ hne

theorem runList_not_writes (l : List In) (q : Nat)
    (hw : ∀ i ∈ l, i.writes q = false) : ∀ (vm vm' : VM),
    vm.runList l = .ok vm' → vm'.regs.get? q = vm.regs.get? q := by
  induction l with
  | nil =>
      intro vm vm' h
      simp only [VM.runList, Except.ok.injEq] at h
      subst h; rfl
  | cons i is ih =>
      intro vm vm' h
      simp only [VM.runList] at h
      cases hstep : vm.step i with
      | error e => rw [hstep] at h; exact Except.noConfusion h
      | ok vm1 =>
          rw [hstep] at h
          dsimp only at h
          rw [ih (fun j hj => hw j (List.mem_cons_of_mem i hj)) vm1 vm' h]
          exact step_not_writes vm vm1 i q hstep (hw i (List.mem_cons_self i is))

theorem lookup_set_mutable (env : Environment) (n : String) (v : Value)
    (h : env.hasBinding n = true) :
    (env.set_mutable_binding n v).lookup n = some v := by
  obtain ⟨b⟩ := env
  induction b with
  | nil => simp [Environment.hasBinding] at h
  | cons p ps ih =>
      by_cases hp : p.1 == n
      · simp [Environment.set_mutable_binding, Environment.lookup, hp, List.find?]
      · have h' : Environment.hasBinding ⟨ps⟩ n = true := by
          simpa [Environment.hasBinding, hp] using h
        have := ih h'
        simpa [Environment.set_mutable_binding, Environment.lookup, hp, List.find?] using this

theorem lookup_create_init (env : Environment) (n : String) (v : Value) :
    ((env.create_mutable_binding n).init_binding n v).lookup n = some v := by
  simp [Environment.create_mutable_binding, Environment.init_binding,
    Environment.lookup, List.find?]

theorem hasBinding_of_lookup (env : Environment) (n : String) (v : Value)
    (h : env.lookup n = some v) : env.hasBinding n = true := by
  obtain ⟨b⟩ := env
  induction b with
  | nil => simp [Environment.lookup] at h
  | cons p ps ih =>
      by_cases hp : p.1 == n
      · simp [Environment.hasBinding, hp]
      · have h' : Environment.lookup ⟨ps⟩ n = some v := by
          simpa [Environment.lookup, List.find?, hp] using h
        have := ih h'
        simpa [Environment.hasBinding, hp] using this

theorem lookup_bindEnv (env : Environment) (n : String) (val : Value) :
    (bindEnv env n val).lookup n = some val := by
  rw [bindEnv]
  by_cases hb : env.hasBinding n
  · simpa [hb] using lookup_set_mutable env n val hb
  · simpa [hb] using lookup_create_init env n val

theorem hasBinding_bindEnv (env : Environment) (n : String) (val : Value) :
    (bindEnv env n val).hasBinding n = true :=
  hasBinding_of_lookup _ n val (lookup_bindEnv env n val)

/-! ## Claim theorems -/

/-- C1 (amended): in the Node-based compiler of `vm/compilation/mod.rs`,
every binary-operator node compiled from allocation cursor `d` leaves the
cursor restored to `d` when its compilation completes.  (The Expr-based
compiler of `vm/mod.rs` does not restore the cursor — see the
counterexample theorem.) -/
theorem binop_cursor_restored_node_compiler
    (op : Compilation.NOper) (lhs rhs : Compilation.Node)
    (c c' : Compilation.Compiler)
    (h : Compilation.compileNode (.binOp op lhs rhs) c = .ok c') :
    c'.next_free = c.next_free := by
  simp only [Compilation.compileNode] at h
  cases h1 : Compilation.compileNode lhs c with
  | error e => rw [h1] at h; exact Except.noConfusion h
  | ok c1 =>
      simp only [h1] at h
      cases h2 : Compilation.compileNode rhs { c1 with next_free := c.next_free + 1 } with
      | error e => rw [h2] at h; exact Except.noConfusion h
      | ok c2 =>
          simp only [h2] at h
          cases op with
          | numAdd =>
              simp only [Except.ok.injEq] at h
              subst h
              rfl
          | numSub => exact Except.noConfusion h
          | compEqual => exact Except.noConfusion h
          | otherOp => exact Except.noConfusion h

/-- Witness for C1: compiling `1 + 2` in the Node-based compiler from
cursor 5 succeeds and leaves the cursor back at 5. -/
theorem binop_cursor_restored_node_compiler_witness :
    Compilation.compileNode demoBin ⟨[], 5⟩ =
      .ok ⟨[.ld 5 (.number 1), .ld 6 (.number 2), .add 5 6], 5⟩ ∧
    (Compilation.Compiler.mk [.ld 5 (.number 1), .ld 6 (.number 2), .add 5 6] 5).next_free =
      (Compilation.Compiler.mk [] 5).next_free :=
  ⟨by decide,
   binop_cursor_restored_node_compiler .numAdd (.const (.num 1)) (.const (.num 2))
     ⟨[], 5⟩ ⟨[.ld 5 (.number 1), .ld 6 (.number 2), .add 5 6], 5⟩ (by decide)⟩

/-- Counterexample to C1 as stated: the Expr-based compiler of
`vm/mod.rs` compiles the binary-operator node `1 + 2` from cursor 0 and
leaves the cursor at 1, not restored to its pre-call value 0. -/
theorem expr_compiler_cursor_not_restored :
    compile_expr demoAdd ⟨[], 0⟩ =
      .ok ⟨[.ld 0 (.number 1), .ld 1 (.number 2), .add 0 1], 1⟩ ∧ (1 : Nat) ≠ 0 := by
  decide

/-- C2 (code bug): compiling a node kind outside the supported subset does
not return a typed `UnsupportedConstruct` error — both compilers hit a
`panic!()`/`unimplemented!()` process abort (the `panicked` outcome of the
embedding), and no `UnsupportedConstruct` value exists in the source. -/
theorem unsupported_construct_panics :
    Compiler.compile ⟨[], 0⟩ (.localVar "y") = .error .panicked ∧
    Compiler.compile ⟨[], 0⟩ (.const (.str "s")) = .error .panicked ∧
    Compilation.compileNode (.unsupported "k") ⟨[], 0⟩ = .error .panicked := by
  decide

/-- C3 (code bug): a chain of 8 nested operators (register demand 9 > 8)
compiles without any error — no `RegisterOverflow` exists — silently
emitting register index 8; running the result aborts with an
out-of-bounds register access instead. -/
theorem register_overflow_unchecked :
    Compiler.compile ⟨[], 0⟩ deep9.toExpr = .ok (deepInstrs, ⟨[], 8⟩) ∧
    In.ld 8 (.number 9) ∈ deepInstrs ∧
    VM.run (VM.new ⟨[]⟩) deepInstrs = .error (.indexOutOfBounds 8) := by
  decide

/-- C4: the AST of `const x = 7 + 4 + 1.1;` compiles to the Load/Add
sequence with the single declaration `Bind`, and running it on a fresh VM
yields 12.1. -/
theorem poc_compiles_and_runs :
    Compiler.compile ⟨[], 0⟩ pocExpr = .ok (pocInstrs, ⟨[], 1⟩) ∧
    (pocInstrs.countP fun i => match i with | .bind _ _ => true | _ => false) = 1 ∧
    VM.run (VM.new ⟨[]⟩) pocInstrs = .ok (.number (121 / 10)) := by
  refine ⟨rfl, by decide, ?_⟩
  rw [show VM.run (VM.new ⟨[]⟩) pocInstrs = .ok (.number (7 + 4 + 11 / 10)) from rfl]
  simp only [Except.ok.injEq, Value.number.injEq]
  norm_num

/-- C5: a register consumed by `Add` (the `src` operand) or by `Bind`
reads as `undefined` immediately after the instruction, and a register
holding `undefined` still reads as `undefined` after any instruction
sequence that never writes it. -/
theorem consumed_register_cleared (vm vm₀ vm₁ : VM) (dest src r q : Nat)
    (name : String) (l : List In)
    (hd : dest < vm.regs.length) (hs : src < vm.regs.length) (hsd : src ≠ dest)
    (hr : r < vm.regs.length) :
    ((vm.step (.add dest src)).map fun v => v.regs.get? src) = .ok (some .undefined) ∧
    ((vm.step (.bind r name)).map fun v => v.regs.get? r) = .ok (some .undefined) ∧
    (vm₀.regs.get? q = some .undefined → (∀ i ∈ l, i.writes q = false) →
      vm₀.runList l = .ok vm₁ → vm₁.regs.get? q = some .undefined) := by
  refine ⟨?_, ?_, ?_⟩
  · have hda := List.get?_eq_get hd
    have hsa := List.get?_eq_get hs
    have hds : dest ≠ src := fun hh => hsd hh.symm
    rw [step_add_values vm dest src _ _ hda hsa hds]
    simp only [Except.map, Except.ok.injEq]
    rw [List.get?_set_ne _ _ hds]
    exact List.get?_set_eq_of_lt _ (by simpa [List.length_set] using hs)
  · have hra := List.get?_eq_get hr
    rw [step_bind_values vm r name _ hra]
    simp only [Except.map, Except.ok.injEq]
    exact List.get?_set_eq_of_lt _ hr
  · intro hinit hw hrun
    rw [runList_not_writes l q hw vm₀ vm₁ hrun]
    exact hinit

/-- Witness for C5 on a fresh VM: register 1 after `Add {dest 0, src 1}`,
register 2 after `Bind`, and register 3 after an unrelated `Ld` all read
as `undefined`. -/
theorem consumed_register_cleared_witness :
    (((VM.new ⟨[]⟩).step (.add 0 1)).map fun v => v.regs.get? 1) = .ok (some .undefined) ∧
    (((VM.new ⟨[]⟩).step (.bind 2 "x")).map fun v => v.regs.get? 2) = .ok (some .undefined) ∧
    (VM.mk ⟨[]⟩ ((List.replicate 8 Value.undefined).set 5 (.number 1))).regs.get? 3 =
      some .undefined := by
  have h := consumed_register_cleared (VM.new ⟨[]⟩) (VM.new ⟨[]⟩)
    (VM.mk ⟨[]⟩ ((List.replicate 8 Value.undefined).set 5 (.number 1)))
    0 1 2 3 "x" [.ld 5 (.number 1)] (by decide) (by decide) (by decide) (by decide)
  exact ⟨h.1, h.2.1, h.2.2 (by decide) (by decide) (by decide)⟩

/-- C6: a `Bind(r, name)` against any environment never faults (given the
register is in range): the consumed register value becomes the binding of
`name` — overwriting when `name` was bound, creating-and-initialising
otherwise — and binding the same name twice leaves the second value, as a
subsequent lookup observes. -/
theorem bind_update_or_declare (vm : VM) (r : Nat) (name : String) (v₁ v₂ : Value)
    (h : r < vm.regs.length) :
    ((vm.step (.bind r name)).map fun v => (v.realm.lookup name, v.regs.get? r)) =
      .ok (vm.regs.get? r, some .undefined) ∧
    ((vm.runList [.ld r v₁, .bind r name, .ld r v₂, .bind r name]).map
        fun v => v.realm.lookup name) = .ok (some v₂) := by
  have hra := List.get?_eq_get h
  constructor
  · rw [step_bind_values vm r name _ hra]
    simp only [Except.map, Except.ok.injEq, Prod.mk.injEq]
    refine ⟨?_, List.get?_set_eq_of_lt _ h⟩
    rw [lookup_bindEnv]
    exact hra.symm
  · have k1 : (vm.regs.set r v₁).get? r = some v₁ :=
      List.get?_set_eq_of_lt _ (by simpa [List.length_set] using h)
    have kl2 : r < ((vm.regs.set r v₁).set r .undefined).length := by
      simpa [List.length_set] using h
    have k3 : (((vm.regs.set r v₁).set r .undefined).set r v₂).get? r = some v₂ :=
      List.get?_set_eq_of_lt _ (by simpa [List.length_set] using h)
    simp only [VM.runList, step_ld_values vm r v₁ h,
      step_bind_values { vm with regs := vm.regs.set r v₁ } r name v₁ k1,
      step_ld_values { realm := bindEnv vm.realm name v₁, regs := (vm.regs.set r v₁).set r .undefined } r v₂ kl2,
      step_bind_values { realm := bindEnv vm.realm name v₁, regs := ((vm.regs.set r v₁).set r .undefined).set r v₂ } r name v₂ k3,
      Except.map, Except.ok.injEq]
    exact lookup_bindEnv _ name v₂

/-- Witness for C6 on a fresh VM: one `Bind` of register 0 into `x` binds
the (undefined) register content, and binding `x` twice with 1 then 2
completes and leaves `x` bound to 2. -/
theorem bind_update_or_declare_witness :
    (((VM.new ⟨[]⟩).step (.bind 0 "x")).map fun v => (v.realm.lookup "x", v.regs.get? 0)) =
      .ok (some .undefined, some .undefined) ∧
    (((VM.new ⟨[]⟩).runList [.ld 0 (.number 1), .bind 0 "x", .ld 0 (.number 2), .bind 0 "x"]).map
        fun v => v.realm.lookup "x") = .ok (some (.number 2)) :=
  bind_update_or_declare (VM.new ⟨[]⟩) 0 "x" (.number 1) (.number 2) (by decide)

/-- C7 (code bug): an out-of-range register reference makes `run` abort
with an out-of-bounds indexing panic — no fault value naming the
offending instruction index and opcode is ever constructed (and the
invalid-opcode arm is unreachable); in-range programs return register 0's
content. -/
theorem run_aborts_on_oob_register :
    VM.run (VM.new ⟨[]⟩) [.add 0 8] = .error (.indexOutOfBounds 8) ∧
    VM.run (VM.new ⟨[]⟩) [.ld 0 (.number 5)] = .ok (.number 5) := by
  decide

/-- C8: compilation is deterministic — equal compiler states and equal
ASTs compile to equal instruction sequences (the compiler is a pure
function of its inputs; the source has no randomness, time, or
unordered-container iteration). -/
theorem compile_deterministic (c₁ c₂ : Compiler) (e₁ e₂ : Expr)
    (hc : c₁ = c₂) (he : e₁ = e₂) :
    Compiler.compile c₁ e₁ = Compiler.compile c₂ e₂ := by
  rw [hc, he]

/-- Witness for C8: two compilations of the `poc` AST from fresh compiler
states coincide. -/
theorem compile_deterministic_witness :
    Compiler.compile ⟨[], 0⟩ pocExpr = Compiler.compile ⟨[], 0⟩ pocExpr :=
  compile_deterministic ⟨[], 0⟩ ⟨[], 0⟩ pocExpr pocExpr rfl rfl

/-- C9 (amended): a nested binary-operator tree of depth `D` compiled at
cursor `c` emits the `NumTree.code` sequence whose register indices are
at most `c + D - 1` (equality does not hold in general — see the
counterexample), and any tree of depth at most 8 runs on a fresh VM to
its arithmetic value. -/
theorem tree_register_bound_and_eval (t : NumTree) (co : Compiler) (h8 : t.depth ≤ 8) :
    compile_expr t.toExpr co = .ok ⟨co.res ++ t.code co.next_free, t.fcur co.next_free⟩ ∧
    maxRegOf (t.code co.next_free) ≤ co.next_free + t.depth - 1 ∧
    VM.run (VM.new ⟨[]⟩) (t.code 0) = .ok (.number t.denote) := by
  refine ⟨compile_tree t co, ?_, ?_⟩
  · have h1 := maxReg_code_bound t co.next_free
    have h2 := t.depth_pos
    omega
  · obtain ⟨vm', hrun, hlen, hget, _⟩ :=
      runList_code t 0 (VM.new ⟨[]⟩) (by simp [VM.new]) (by omega)
    simp only [VM.run, hrun, hget]

/-- Witness for C9: the `7 + 4 + 1.1` tree (depth 3) compiles from a
fresh compiler to its code with every register index at most 2, and runs
to its value. -/
theorem tree_register_bound_and_eval_witness :
    compile_expr pocTree.toExpr ⟨[], 0⟩ = .ok ⟨pocTree.code 0, 1⟩ ∧
    maxRegOf (pocTree.code 0) ≤ 2 ∧
    VM.run (VM.new ⟨[]⟩) (pocTree.code 0) = .ok (.number pocTree.denote) := by
  have h := tree_register_bound_and_eval pocTree ⟨[], 0⟩ (by decide)
  exact ⟨h.1, h.2.1, h.2.2⟩

/-- Counterexample to C9 as stated: the left-nested tree `(1 + 2) + 3`
has depth 3 but its compilation from cursor 0 mentions no register above
index 1, so the maximum register index is not `c + D - 1 = 2`. -/
theorem tree_register_bound_not_exact :
    leftComb.depth = 3 ∧
    compile_expr leftComb.toExpr ⟨[], 0⟩ = .ok ⟨leftCombInstrs, 1⟩ ∧
    maxRegOf leftCombInstrs = 1 ∧ (1 : Nat) ≠ 0 + 3 - 1 := by
  decide

/-- C10: both `compile` entry points empty the instruction buffer of the
returned compiler state (`mem::replace`) while handing out the
accumulated instructions, and leave `next_free` exactly where
`compile_expr` left it — concretely, after compiling `1 + 2` from a fresh
state the cursor rests at 1 and a second compile of the constant `5`
emits `Ld` at register 1, not 0. -/
theorem compile_frame_effect :
    (∀ (c : Compiler) (e : Expr),
      ((Compiler.compile c e).map fun p => p.2.res) =
        ((compile_expr e c).map fun _ => ([] : List In)) ∧
      ((Compiler.compile c e).map fun p => p.2.next_free) =
        ((compile_expr e c).map fun c1 => c1.next_free) ∧
      ((Compiler.compile c e).map fun p => p.1) =
        ((compile_expr e c).map fun c1 => c1.res)) ∧
    (∀ (c : Compilation.Compiler) (ns : List Compilation.Node),
      ((Compilation.Compiler.compile c ns).map fun p => p.2.res) =
        ((Compilation.compileStmtList ns c).map fun _ => ([] : List In)) ∧
      ((Compilation.Compiler.compile c ns).map fun p => p.2.next_free) =
        ((Compilation.compileStmtList ns c).map fun c1 => c1.next_free)) ∧
    ((Compiler.compile ⟨[], 0⟩ demoAdd).map fun p => p.2) = .ok ⟨[], 1⟩ ∧
    Except.bind (Compiler.compile ⟨[], 0⟩ demoAdd)
      (fun p => Compiler.compile p.2 (.const (.num 5))) =
        .ok ([.ld 1 (.number 5)], ⟨[], 1⟩) := by
  refine ⟨?_, ?_, by decide, by decide⟩
  · intro c e
    cases hc : compile_expr e c <;> simp [Compiler.compile, hc, Except.map]
  · intro c ns
    cases hc : Compilation.compileStmtList ns c <;>
      simp [Compilation.Compiler.compile, hc, Except.map]
